import Mathlib

/-!
Verification of the hex-tiling image converter (convert_png_to_svg.py).

The file embeds the source functions shallowly:
the rounding and coordinate arithmetic is written generically over a
linear ordered field with a floor, instantiated at the rationals where
executability matters and at the reals where the source uses sqrt, cos
and sin; the sampler and renderer become list folds over an
insertion-ordered association list, mirroring the Python defaultdict.
-/

/-- Embedding of the Python builtin round: round half to even
(banker rounding), returning an integer. -/
def pyRound {K : Type*} [LinearOrderedField K] [FloorRing K] (x : K) : ℤ :=
  if x - ⌊x⌋ < 1 / 2 then ⌊x⌋
  else if 1 / 2 < x - ⌊x⌋ then ⌊x⌋ + 1
  else if ⌊x⌋ % 2 = 0 then ⌊x⌋ else ⌊x⌋ + 1

/-- The body of axial_round before the final projection: cube coordinates
x = q, y = -x - z, z = r are rounded componentwise, then the component whose
rounding deviated most is recomputed from the other two, exactly as the
branches of the source do. -/
def axial_cube_round {K : Type*} [LinearOrderedField K] [FloorRing K]
    (q r : K) : ℤ × ℤ × ℤ :=
  let x := q
  let z := r
  let y := -x - z
  let rx := pyRound x
  let ry := pyRound y
  let rz := pyRound z
  let dx := |(rx : K) - x|
  let dy := |(ry : K) - y|
  let dz := |(rz : K) - z|
  if dx > dy ∧ dx > dz then (-ry - rz, ry, rz)
  else if dy > dz then (rx, -rx - rz, rz)
  else (rx, ry, -rx - ry)

/-- axial_round from the source: computes the corrected cube triple and
returns the pair (rx, rz). -/
def axial_round {K : Type*} [LinearOrderedField K] [FloorRing K]
    (q r : K) : ℤ × ℤ :=
  ((axial_cube_round q r).1, (axial_cube_round q r).2.2)

/-- Reference rounding procedure written from the words of the spec:
convert (q, r) to cube coordinates (x = q, y = -q - r, z = r), round each
component to the nearest integer independently, then recompute the component
whose rounded value deviates most from its original value as the negation of
the sum of the other two rounded components, checking dx > dy and dx > dz
first, then dy > dz, else correcting z. -/
def cube_round_spec {K : Type*} [LinearOrderedField K] [FloorRing K]
    (q r : K) : ℤ × ℤ × ℤ :=
  let x := q
  let y := -q - r
  let z := r
  let rx := pyRound x
  let ry := pyRound y
  let rz := pyRound z
  let dx := |(rx : K) - x|
  let dy := |(ry : K) - y|
  let dz := |(rz : K) - z|
  if dx > dy ∧ dx > dz then (-ry - rz, ry, rz)
  else if dy > dz then (rx, -rx - rz, rz)
  else (rx, ry, -rx - ry)

lemma axial_cube_round_eq_spec {K : Type*} [LinearOrderedField K] [FloorRing K]
    (q r : K) : axial_cube_round q r = cube_round_spec q r := by
  unfold axial_cube_round cube_round_spec
  rfl

lemma cube_round_spec_sum {K : Type*} [LinearOrderedField K] [FloorRing K]
    (q r : K) :
    (cube_round_spec q r).1 + (cube_round_spec q r).2.1 +
      (cube_round_spec q r).2.2 = 0 := by
  simp only [cube_round_spec]
  split_ifs <;> dsimp only <;> omega

lemma pyRound_intCast {K : Type*} [LinearOrderedField K] [FloorRing K]
    (n : ℤ) : pyRound ((n : K)) = n := by
  unfold pyRound
  rw [Int.floor_intCast]
  have h : (n : K) - (n : K) = 0 := sub_self _
  rw [h]
  norm_num

lemma axial_round_intCast {K : Type*} [LinearOrderedField K] [FloorRing K]
    (m n : ℤ) : axial_round ((m : K)) ((n : K)) = (m, n) := by
  simp only [axial_round, axial_cube_round]
  have hy : -(m : K) - (n : K) = ((-m - n : ℤ) : K) := by push_cast; ring
  rw [hy, pyRound_intCast, pyRound_intCast, pyRound_intCast]
  have h1 : ((m : ℤ) : K) - (m : K) = 0 := sub_self _
  have h2 : ((-m - n : ℤ) : K) - ((-m - n : ℤ) : K) = 0 := sub_self _
  have h3 : ((n : ℤ) : K) - (n : K) = 0 := sub_self _
  rw [h1, h3, h2]
  simp only [abs_zero]
  rw [if_neg (by simp), if_neg (by simp)]
  dsimp only
  rw [Prod.mk.injEq]
  exact ⟨rfl, by omega⟩

/-- C1: for every fractional axial input (q, r), axial_round agrees with the
cube-coordinate rounding reference taken from the spec (convert to cube
coordinates, round componentwise, recompute the component of largest
deviation, ties resolved by checking dx > dy and dx > dz first, then
dy > dz, else correcting z), and the corrected cube triple always sums
to zero. -/
theorem axial_round_matches_cube_reference (q r : ℚ) :
    axial_round q r =
      ((cube_round_spec q r).1, (cube_round_spec q r).2.2) ∧
    axial_cube_round q r = cube_round_spec q r ∧
    (cube_round_spec q r).1 + (cube_round_spec q r).2.1 +
      (cube_round_spec q r).2.2 = 0 := by
  refine ⟨?_, axial_cube_round_eq_spec q r, cube_round_spec_sum q r⟩
  unfold axial_round
  rw [axial_cube_round_eq_spec]

/-- C6: axial_round is the identity on integral input: for integers q and r,
axial_round (q, r) returns exactly (q, r). -/
theorem axial_round_idempotent_on_integers (q r : ℤ) :
    axial_round ((q : ℚ)) ((r : ℚ)) = (q, r) :=
  axial_round_intCast q r

/-- pixel_to_pointy_hex from the source: normalize the pixel position by
size, apply the pointy-top fractional axial formulas, and round with
axial_round. -/
noncomputable def pixel_to_pointy_hex (x y size : ℝ) : ℤ × ℤ :=
  let x1 := x / size
  let y1 := y / size
  let q := (2 / 3) * x1
  let r := (Real.sqrt 3 / 3) * y1 - (1 / 3) * x1
  axial_round q r

/-- hex_to_pixel from the source: the pixel center of the hex cell (q, r). -/
noncomputable def hex_to_pixel (q r size : ℝ) : ℝ × ℝ :=
  (size * (3 / 2) * q, size * Real.sqrt 3 * (q / 2 + r))

/-- hex_corner from the source: the i-th corner of a hexagon centered at
(cx, cy) with circumradius size, at angle 60 times i degrees. -/
noncomputable def hex_corner (cx cy size : ℝ) (i : ℤ) : ℝ × ℝ :=
  let angle_deg : ℝ := 60 * i
  let angle_rad := Real.pi / 180 * angle_deg
  (cx + size * Real.cos angle_rad, cy + size * Real.sin angle_rad)

/-- C2: mapping a hex cell to its pixel center with hex_to_pixel and back
with pixel_to_pointy_hex is the identity on integer axial coordinates, for
every positive size. -/
theorem pixel_hex_round_trip (q r : ℤ) (size : ℝ) (h : 0 < size) :
    pixel_to_pointy_hex (hex_to_pixel q r size).1 (hex_to_pixel q r size).2
      size = (q, r) := by
  have hs : size ≠ 0 := ne_of_gt h
  have s3 : Real.sqrt 3 * Real.sqrt 3 = 3 :=
    Real.mul_self_sqrt (by norm_num)
  simp only [pixel_to_pointy_hex, hex_to_pixel]
  have hq : (2 / 3) * (size * (3 / 2) * (q : ℝ) / size) = ((q : ℤ) : ℝ) := by
    field_simp
    ring
  have hr : (Real.sqrt 3 / 3) * (size * Real.sqrt 3 * ((q : ℝ) / 2 + r) / size)
      - (1 / 3) * (size * (3 / 2) * (q : ℝ) / size) = ((r : ℤ) : ℝ) := by
    field_simp
    linear_combination (size * ((q : ℝ) + 2 * r)) * s3
  rw [hq, hr, axial_round_intCast]

/-- C2 witness: the round trip at the concrete cell (0, 0) with size 1. -/
theorem pixel_hex_round_trip_witness :
    (0 : ℝ) < 1 ∧
    pixel_to_pointy_hex (hex_to_pixel 0 0 1).1 (hex_to_pixel 0 0 1).2 1 =
      (0, 0) :=
  ⟨one_pos, by
    have h := pixel_hex_round_trip 0 0 1 one_pos
    simpa using h⟩

lemma hex_corner_formula (cx cy size : ℝ) (i : ℤ) :
    hex_corner cx cy size i =
      (cx + size * Real.cos (Real.pi / 180 * (60 * i)),
       cy + size * Real.sin (Real.pi / 180 * (60 * i))) := rfl

/-- C8: hex_corner places the i-th corner at angle 60 degrees times i from
the positive x-axis at distance size from the center; on the concrete input
(12, 15, 3, 2) it returns (10.5, 15 + 3 sqrt 3 / 2), the corner for i = 0
lies along the positive x-axis, and the function is periodic in i with
period 6. -/
theorem hex_corner_geometry :
    (∀ cx cy size : ℝ, ∀ i : ℤ, hex_corner cx cy size i =
      (cx + size * Real.cos (Real.pi / 180 * (60 * i)),
       cy + size * Real.sin (Real.pi / 180 * (60 * i)))) ∧
    hex_corner 12 15 3 2 = (21 / 2, 15 + 3 * (Real.sqrt 3 / 2)) ∧
    (∀ cx cy size : ℝ, hex_corner cx cy size 0 = (cx + size, cy)) ∧
    (∀ cx cy size : ℝ, ∀ i : ℤ,
      hex_corner cx cy size (i + 6) = hex_corner cx cy size i) := by
  refine ⟨fun cx cy size i => hex_corner_formula cx cy size i, ?_, ?_, ?_⟩
  · rw [hex_corner_formula]
    have ha : Real.pi / 180 * (60 * ((2 : ℤ) : ℝ)) = Real.pi - Real.pi / 3 := by
      push_cast
      ring
    rw [ha, Real.cos_pi_sub, Real.sin_pi_sub, Real.cos_pi_div_three,
      Real.sin_pi_div_three]
    norm_num
  · intro cx cy size
    rw [hex_corner_formula]
    norm_num
  · intro cx cy size i
    rw [hex_corner_formula, hex_corner_formula]
    have ha : Real.pi / 180 * (60 * (((i + 6) : ℤ) : ℝ)) =
        Real.pi / 180 * (60 * (i : ℝ)) + 2 * Real.pi := by
      push_cast
      ring
    rw [ha, Real.cos_add_two_pi, Real.sin_add_two_pi]

/-- An RGB sample as produced by image.getpixel: a triple of integers. -/
abbrev Pixel : Type := ℤ × ℤ × ℤ

/-- One output channel of the renderer: sum of the collected samples of the
channel, floor-divided (Python //) by their count. -/
def channel_avg (l : List ℤ) : ℤ := Int.fdiv l.sum (l.length : ℤ)

/-- The averaged color of one populated cell, as computed by the renderer
loop of convert_png_to_svg: each channel is sum // n. -/
def average_color (pixels : List Pixel) : Pixel :=
  (channel_avg (pixels.map fun p => p.1),
   channel_avg (pixels.map fun p => p.2.1),
   channel_avg (pixels.map fun p => p.2.2))

/-- All three channels of a pixel lie in the byte range 0..255. -/
def in_rgb_range (p : Pixel) : Prop :=
  0 ≤ p.1 ∧ p.1 ≤ 255 ∧ 0 ≤ p.2.1 ∧ p.2.1 ≤ 255 ∧ 0 ≤ p.2.2 ∧ p.2.2 ≤ 255

instance (p : Pixel) : Decidable (in_rgb_range p) := by
  unfold in_rgb_range
  infer_instance

lemma channel_avg_bounds (l : List ℤ) (hne : l ≠ [])
    (hlo : ∀ v ∈ l, 0 ≤ v) (hhi : ∀ v ∈ l, v ≤ 255) :
    0 ≤ channel_avg l ∧ channel_avg l ≤ 255 := by
  have hn : 0 < (l.length : ℤ) := by
    have := List.length_pos.mpr hne
    exact_mod_cast this
  have hsum0 : 0 ≤ l.sum := List.sum_nonneg hlo
  have hsum255 : l.sum ≤ 255 * (l.length : ℤ) := by
    have h := List.sum_le_card_nsmul l 255 hhi
    simpa [nsmul_eq_mul, mul_comm] using h
  unfold channel_avg
  rw [Int.fdiv_eq_ediv _ (le_of_lt hn)]
  constructor
  · exact Int.ediv_nonneg hsum0 (le_of_lt hn)
  · have h1 : l.sum / (l.length : ℤ) ≤ 255 * (l.length : ℤ) / (l.length : ℤ) :=
      Int.ediv_le_ediv hn hsum255
    rwa [Int.mul_ediv_cancel _ (ne_of_gt hn)] at h1

/-- C3: the per-cell color average is the floor division sum // n of each
channel; for samples whose channels are bytes the result is a byte in
0..255, and the samples (10,0,0), (11,0,0) average to red channel 10
(truncated, not rounded to 11). -/
theorem average_color_floor_division :
    (∀ pixels : List Pixel, pixels ≠ [] →
      (∀ p ∈ pixels, in_rgb_range p) → in_rgb_range (average_color pixels)) ∧
    average_color [(10, 0, 0), (11, 0, 0)] = (10, 0, 0) ∧
    channel_avg [10, 11] = 10 := by
  refine ⟨?_, by decide, by decide⟩
  intro pixels hne hp
  have hmapne : ∀ f : Pixel → ℤ, pixels.map f ≠ [] := by
    intro f
    simpa using hne
  refine ⟨?_, ?_, ?_, ?_, ?_, ?_⟩
  · exact (channel_avg_bounds _ (hmapne _)
      (by intro v hv; obtain ⟨p, hpmem, rfl⟩ := List.mem_map.mp hv
          exact (hp p hpmem).1)
      (by intro v hv; obtain ⟨p, hpmem, rfl⟩ := List.mem_map.mp hv
          exact (hp p hpmem).2.1)).1
  · exact (channel_avg_bounds _ (hmapne _)
      (by intro v hv; obtain ⟨p, hpmem, rfl⟩ := List.mem_map.mp hv
          exact (hp p hpmem).1)
      (by intro v hv; obtain ⟨p, hpmem, rfl⟩ := List.mem_map.mp hv
          exact (hp p hpmem).2.1)).2
  · exact (channel_avg_bounds _ (hmapne _)
      (by intro v hv; obtain ⟨p, hpmem, rfl⟩ := List.mem_map.mp hv
          exact (hp p hpmem).2.2.1)
      (by intro v hv; obtain ⟨p, hpmem, rfl⟩ := List.mem_map.mp hv
          exact (hp p hpmem).2.2.2.1)).1
  · exact (channel_avg_bounds _ (hmapne _)
      (by intro v hv; obtain ⟨p, hpmem, rfl⟩ := List.mem_map.mp hv
          exact (hp p hpmem).2.2.1)
      (by intro v hv; obtain ⟨p, hpmem, rfl⟩ := List.mem_map.mp hv
          exact (hp p hpmem).2.2.2.1)).2
  · exact (channel_avg_bounds _ (hmapne _)
      (by intro v hv; obtain ⟨p, hpmem, rfl⟩ := List.mem_map.mp hv
          exact (hp p hpmem).2.2.2.2.1)
      (by intro v hv; obtain ⟨p, hpmem, rfl⟩ := List.mem_map.mp hv
          exact (hp p hpmem).2.2.2.2.2)).1
  · exact (channel_avg_bounds _ (hmapne _)
      (by intro v hv; obtain ⟨p, hpmem, rfl⟩ := List.mem_map.mp hv
          exact (hp p hpmem).2.2.2.2.1)
      (by intro v hv; obtain ⟨p, hpmem, rfl⟩ := List.mem_map.mp hv
          exact (hp p hpmem).2.2.2.2.2)).2

/-- C3 witness: the bound part of the averaging theorem applied to the
concrete sample list (10,0,0), (11,0,0). -/
theorem average_color_floor_division_witness :
    ([((10 : ℤ), (0 : ℤ), (0 : ℤ)), (11, 0, 0)] ≠ ([] : List Pixel)) ∧
    (∀ p ∈ [((10 : ℤ), (0 : ℤ), (0 : ℤ)), (11, 0, 0)], in_rgb_range p) ∧
    in_rgb_range (average_color [((10 : ℤ), (0 : ℤ), (0 : ℤ)), (11, 0, 0)]) :=
  ⟨by decide, by decide,
    average_color_floor_division.1 [(10, 0, 0), (11, 0, 0)]
      (by decide) (by decide)⟩

/-- Errors a run of the converter can signal. rangeStepZero models the
ValueError the Python range builtin raises when its step argument is 0;
invalidParameter is the error class the spec requires of a hardened
reimplementation. -/
inductive ConvError : Type
  | rangeStepZero : ConvError
  | invalidParameter : ConvError
deriving DecidableEq

/-- The hex circumradius derived from the image height, as in the source:
height / (10 * sqrt 3). -/
noncomputable def hexSize (height : ℕ) : ℝ := (height : ℝ) / (10 * Real.sqrt 3)

/-- The sampler stride int(size / 2) of the source; the argument is
nonnegative here, so Python int() truncation is the floor. -/
noncomputable def strideOf (height : ℕ) : ℤ := ⌊hexSize height / 2⌋

/-- The coordinates visited by range(0, limit, s): i * s for
i < ceil(limit / s). Only used with s ≥ 1. -/
def sampleCoords (limit s : ℕ) : List ℕ :=
  (List.range ((limit + s - 1) / s)).map (fun i => i * s)

/-- The raster sweep of the sampler: outer loop over x, inner loop over y. -/
def sweep (width height s : ℕ) : List (ℕ × ℕ) :=
  (sampleCoords width s).flatMap
    (fun x => (sampleCoords height s).map (fun y => (x, y)))

/-- One step of the defaultdict accumulator: append the sample v to the
entry of key k, creating the entry at the end on first touch (Python dicts
iterate in insertion order). -/
def addSample (k : ℤ × ℤ) (v : Pixel) :
    List ((ℤ × ℤ) × List Pixel) → List ((ℤ × ℤ) × List Pixel)
  | [] => [(k, [v])]
  | e :: rest =>
      if e.1 = k then (e.1, e.2 ++ [v]) :: rest else e :: addSample k v rest

/-- The sampling loop: bucket the color at every sweep position under the
hex cell given by the key function. -/
def accumulate (key : ℕ × ℕ → ℤ × ℤ) (pix : ℕ × ℕ → Pixel)
    (samples : List (ℕ × ℕ)) : List ((ℤ × ℤ) × List Pixel) :=
  samples.foldl (fun acc p => addSample (key p) (pix p) acc) []

/-- The rendering loop: one output record per accumulator entry, in order,
carrying the cell and its averaged color. -/
def renderCells (acc : List ((ℤ × ℤ) × List Pixel)) :
    List ((ℤ × ℤ) × Pixel) :=
  acc.map (fun e => (e.1, average_color e.2))

/-- One lowercase hexadecimal digit. -/
def hexDigitChar (d : ℕ) : Char :=
  if d < 10 then Char.ofNat (48 + d) else Char.ofNat (87 + d)

/-- Python 02x formatting of a byte value 0..255: exactly two lowercase
hex digits. -/
def toHex2 (v : ℤ) : String :=
  String.mk [hexDigitChar (v.toNat / 16), hexDigitChar (v.toNat % 16)]

/-- The fill attribute string built by the renderer. -/
def fillColor (p : Pixel) : String :=
  String.mk ('#' :: ((toHex2 p.1).data ++ (toHex2 p.2.1).data ++
    (toHex2 p.2.2).data))

/-- The cells the converter renders for a given image: sample on the sweep
grid, bucket by pixel_to_pointy_hex, then average each cell. -/
noncomputable def convertCells (width height : ℕ) (getpixel : ℕ × ℕ → Pixel) :
    List ((ℤ × ℤ) × Pixel) :=
  renderCells (accumulate
    (fun p => pixel_to_pointy_hex (p.1 : ℝ) (p.2 : ℝ) (hexSize height))
    getpixel (sweep width height (strideOf height).toNat))

/-- convert_png_to_svg from the source, with decoding and serialization
abstracted away: the image is width, height and a pixel accessor, and the
output is the list of rendered cells. When int(size / 2) is 0 the Python
range call raises ValueError, modelled as the rangeStepZero error. -/
noncomputable def convert_png_to_svg (width height : ℕ)
    (getpixel : ℕ × ℕ → Pixel) : Except ConvError (List ((ℤ × ℤ) × Pixel)) :=
  if strideOf height ≤ 0 then Except.error ConvError.rangeStepZero
  else Except.ok (convertCells width height getpixel)

/-- Modelled from the spec: the hardened reimplementation (absent from the
repository source, which ships only the unguarded reference) must validate
the computed hex size and the sampler stride before sampling and surface an
InvalidParameter error when the size is not positive or the stride
truncates to 0. -/
noncomputable def convert_hardened (width height : ℕ)
    (getpixel : ℕ × ℕ → Pixel) : Except ConvError (List ((ℤ × ℤ) × Pixel)) :=
  if hexSize height ≤ 0 ∨ strideOf height ≤ 0 then
    Except.error ConvError.invalidParameter
  else Except.ok (convertCells width height getpixel)

lemma sqrt3_mul_self : Real.sqrt 3 * Real.sqrt 3 = 3 :=
  Real.mul_self_sqrt (by norm_num)

lemma sqrt3_pos : 0 < Real.sqrt 3 :=
  Real.sqrt_pos.mpr (by norm_num)

lemma sqrt3_le_seven_fourths : Real.sqrt 3 ≤ 7 / 4 := by
  nlinarith [sqrt3_mul_self, sqrt3_pos]

lemma hexSize_div_two (height : ℕ) :
    hexSize height / 2 = (height : ℝ) / (20 * Real.sqrt 3) := by
  unfold hexSize
  rw [div_div]
  ring_nf

lemma strideOf_eq_zero {height : ℕ}
    (h : (height : ℝ) < 20 * Real.sqrt 3) : strideOf height = 0 := by
  unfold strideOf
  rw [hexSize_div_two]
  rw [Int.floor_eq_zero_iff]
  constructor
  · positivity
  · rw [div_lt_one (by positivity)]
    exact h

lemma strideOf_ge_one {height : ℕ} (h : 35 ≤ height) :
    1 ≤ strideOf height := by
  unfold strideOf
  rw [hexSize_div_two, Int.le_floor]
  rw [show (((1 : ℤ)) : ℝ) = 1 by norm_num]
  rw [le_div_iff₀ (by positivity), one_mul]
  have h35 : (35 : ℝ) ≤ (height : ℝ) := by exact_mod_cast h
  nlinarith [sqrt3_le_seven_fourths]

/-- C4: on a 1 by 1 image the computed stride int(size / 2) truncates to 0,
the reference converter then fails at the range call with step 0 (it does
not hang and produces no output), and the hardened converter modelled from
the spec raises InvalidParameter there. -/
theorem tiny_image_conversion_errors (g : ℕ × ℕ → Pixel) :
    strideOf 1 = 0 ∧
    convert_png_to_svg 1 1 g = Except.error ConvError.rangeStepZero ∧
    convert_hardened 1 1 g = Except.error ConvError.invalidParameter := by
  have h1 : ((1 : ℕ) : ℝ) < 20 * Real.sqrt 3 := by
    push_cast
    nlinarith [sqrt3_mul_self, sqrt3_pos]
  have hstr : strideOf 1 = 0 := strideOf_eq_zero h1
  refine ⟨hstr, ?_, ?_⟩
  · unfold convert_png_to_svg
    rw [if_pos (by rw [hstr])]
  · unfold convert_hardened
    rw [if_pos (Or.inr (by rw [hstr]))]

/-- The keys of a key sequence in order of first occurrence: the iteration
order of a Python dict populated by that sequence. -/
def firstKeys (l : List (ℤ × ℤ)) : List (ℤ × ℤ) :=
  l.foldl (fun acc k => if k ∈ acc then acc else acc ++ [k]) []

lemma addSample_ne_nil (k : ℤ × ℤ) (v : Pixel)
    (acc : List ((ℤ × ℤ) × List Pixel)) : addSample k v acc ≠ [] := by
  cases acc with
  | nil => simp [addSample]
  | cons e rest =>
      unfold addSample
      split_ifs <;> simp

lemma addSample_map_fst (k : ℤ × ℤ) (v : Pixel)
    (acc : List ((ℤ × ℤ) × List Pixel)) :
    (addSample k v acc).map Prod.fst =
      if k ∈ acc.map Prod.fst then acc.map Prod.fst
      else acc.map Prod.fst ++ [k] := by
  induction acc with
  | nil => simp [addSample]
  | cons e rest ih =>
      unfold addSample
      by_cases he : e.1 = k
      · rw [if_pos he]
        have : k ∈ (e :: rest).map Prod.fst := by
          simp [he.symm]
        rw [if_pos this]
        simp
      · rw [if_neg he]
        by_cases hk : k ∈ rest.map Prod.fst
        · have : k ∈ (e :: rest).map Prod.fst := by simp [hk]
          rw [if_pos this]
          simp [ih, hk]
        · have : k ∉ (e :: rest).map Prod.fst := by
            simp only [List.map_cons, List.mem_cons]
            push_neg
            exact ⟨fun h => he h.symm, hk⟩
          rw [if_neg this]
          simp [ih, hk]

lemma foldl_addSample_map_fst (key : ℕ × ℕ → ℤ × ℤ) (pix : ℕ × ℕ → Pixel)
    (samples : List (ℕ × ℕ)) :
    ∀ acc : List ((ℤ × ℤ) × List Pixel),
      (samples.foldl (fun a p => addSample (key p) (pix p) a) acc).map
        Prod.fst =
      (samples.map key).foldl
        (fun a k => if k ∈ a then a else a ++ [k]) (acc.map Prod.fst) := by
  induction samples with
  | nil => intro acc; simp
  | cons p rest ih =>
      intro acc
      simp only [List.foldl_cons, List.map_cons]
      rw [ih, addSample_map_fst]

lemma accumulate_map_fst (key : ℕ × ℕ → ℤ × ℤ) (pix : ℕ × ℕ → Pixel)
    (samples : List (ℕ × ℕ)) :
    (accumulate key pix samples).map Prod.fst = firstKeys (samples.map key) := by
  unfold accumulate firstKeys
  rw [foldl_addSample_map_fst]
  simp

lemma foldl_firstKeys_nodup (l : List (ℤ × ℤ)) :
    ∀ acc : List (ℤ × ℤ), acc.Nodup →
      (l.foldl (fun a k => if k ∈ a then a else a ++ [k]) acc).Nodup := by
  induction l with
  | nil => intro acc h; simpa
  | cons k rest ih =>
      intro acc h
      simp only [List.foldl_cons]
      by_cases hk : k ∈ acc
      · rw [if_pos hk]
        exact ih acc h
      · rw [if_neg hk]
        refine ih _ ?_
        have hperm : (acc ++ [k]).Perm (k :: acc) := List.perm_append_singleton k acc
        rw [hperm.nodup_iff, List.nodup_cons]
        exact ⟨hk, h⟩

lemma firstKeys_nodup (l : List (ℤ × ℤ)) : (firstKeys l).Nodup :=
  foldl_firstKeys_nodup l [] List.nodup_nil

lemma foldl_firstKeys_mem (l : List (ℤ × ℤ)) :
    ∀ (acc : List (ℤ × ℤ)) (k : ℤ × ℤ),
      (k ∈ l.foldl (fun a k => if k ∈ a then a else a ++ [k]) acc ↔
        k ∈ acc ∨ k ∈ l) := by
  induction l with
  | nil => intro acc k; simp
  | cons a rest ih =>
      intro acc k
      simp only [List.foldl_cons, List.mem_cons]
      by_cases ha : a ∈ acc
      · rw [if_pos ha, ih]
        constructor
        · rintro (h | h)
          · exact Or.inl h
          · exact Or.inr (Or.inr h)
        · rintro (h | h | h)
          · exact Or.inl h
          · exact Or.inl (h ▸ ha)
          · exact Or.inr h
      · rw [if_neg ha, ih]
        simp only [List.mem_append, List.mem_singleton]
        tauto

lemma firstKeys_mem (l : List (ℤ × ℤ)) (k : ℤ × ℤ) :
    k ∈ firstKeys l ↔ k ∈ l := by
  unfold firstKeys
  rw [foldl_firstKeys_mem]
  simp

lemma renderCells_map_fst (acc : List ((ℤ × ℤ) × List Pixel)) :
    (renderCells acc).map Prod.fst = acc.map Prod.fst := by
  unfold renderCells
  rw [List.map_map]
  rfl

/-- C9: the renderer emits exactly one polygon per populated cell (the key
list is duplicate-free and carries exactly the cells touched by some
sample), in insertion order of the first sample that touched each cell, and
the sweep enumerates sample positions with the outer loop over x and the
inner loop over y. -/
theorem polygon_emission_order (key : ℕ × ℕ → ℤ × ℤ) (pix : ℕ × ℕ → Pixel)
    (samples : List (ℕ × ℕ)) :
    (renderCells (accumulate key pix samples)).map Prod.fst =
      firstKeys (samples.map key) ∧
    ((renderCells (accumulate key pix samples)).map Prod.fst).Nodup ∧
    (∀ k : ℤ × ℤ, k ∈ (renderCells (accumulate key pix samples)).map Prod.fst
      ↔ k ∈ samples.map key) ∧
    (∀ width height s : ℕ, sweep width height s =
      (sampleCoords width s).flatMap
        (fun x => (sampleCoords height s).map (fun y => (x, y)))) := by
  have hmap : (renderCells (accumulate key pix samples)).map Prod.fst =
      firstKeys (samples.map key) := by
    rw [renderCells_map_fst, accumulate_map_fst]
  refine ⟨hmap, ?_, ?_, fun _ _ _ => rfl⟩
  · rw [hmap]
    exact firstKeys_nodup _
  · intro k
    rw [hmap, firstKeys_mem]

lemma addSample_values_ne_nil (k : ℤ × ℤ) (v : Pixel)
    (acc : List ((ℤ × ℤ) × List Pixel))
    (h : ∀ e ∈ acc, e.2 ≠ []) :
    ∀ e ∈ addSample k v acc, e.2 ≠ [] := by
  induction acc with
  | nil =>
      intro e he
      simp only [addSample, List.mem_singleton] at he
      subst he
      simp
  | cons a rest ih =>
      intro e he
      unfold addSample at he
      by_cases ha : a.1 = k
      · rw [if_pos ha] at he
        rcases List.mem_cons.mp he with h1 | h1
        · subst h1
          simp
        · exact h e (List.mem_cons_of_mem a h1)
      · rw [if_neg ha] at he
        rcases List.mem_cons.mp he with h1 | h1
        · rw [h1]
          exact h a (List.mem_cons_self a rest)
        · exact ih (fun x hx => h x (List.mem_cons_of_mem a hx)) e h1

lemma foldl_addSample_values_ne_nil (key : ℕ × ℕ → ℤ × ℤ)
    (pix : ℕ × ℕ → Pixel) (samples : List (ℕ × ℕ)) :
    ∀ acc : List ((ℤ × ℤ) × List Pixel), (∀ e ∈ acc, e.2 ≠ []) →
      ∀ e ∈ samples.foldl (fun a p => addSample (key p) (pix p) a) acc,
        e.2 ≠ [] := by
  induction samples with
  | nil =>
      intro acc h
      simp only [List.foldl_nil]
      exact h
  | cons p rest ih =>
      intro acc h
      simp only [List.foldl_cons]
      exact ih _ (addSample_values_ne_nil _ _ _ h)

lemma accumulate_values_ne_nil (key : ℕ × ℕ → ℤ × ℤ) (pix : ℕ × ℕ → Pixel)
    (samples : List (ℕ × ℕ)) :
    ∀ e ∈ accumulate key pix samples, e.2 ≠ [] :=
  foldl_addSample_values_ne_nil key pix samples [] (by simp)

/-- C10: every entry of the populated accumulator carries a non-empty
sample list, so the per-channel divisor n, the length of that list, is
never zero in the rendering step. -/
theorem accumulator_never_divides_by_zero (key : ℕ × ℕ → ℤ × ℤ)
    (pix : ℕ × ℕ → Pixel) (samples : List (ℕ × ℕ)) :
    (accumulate key pix samples).Forall
      (fun e => e.2 ≠ [] ∧ ((e.2.length : ℤ)) ≠ 0) := by
  rw [List.forall_iff_forall_mem]
  intro e he
  have h := accumulate_values_ne_nil key pix samples e he
  refine ⟨h, ?_⟩
  have : e.2.length ≠ 0 := by
    simpa [List.length_eq_zero] using h
  exact_mod_cast this

lemma average_color_const_red (vs : List Pixel) (hne : vs ≠ [])
    (h : ∀ x ∈ vs, x = ((255 : ℤ), (0 : ℤ), (0 : ℤ))) :
    average_color vs = (255, 0, 0) := by
  have hlen : vs.length ≠ 0 := by
    simpa [List.length_eq_zero] using hne
  have hn : ((vs.length : ℤ)) ≠ 0 := by exact_mod_cast hlen
  have h1 : vs.map (fun p => p.1) = List.replicate vs.length (255 : ℤ) := by
    have hm : ∀ b ∈ vs.map (fun p : Pixel => p.1), b = (255 : ℤ) := by
      intro b hb
      obtain ⟨p, hp, rfl⟩ := List.mem_map.mp hb
      rw [h p hp]
    simpa using List.eq_replicate_of_mem hm
  have h2 : vs.map (fun p => p.2.1) = List.replicate vs.length (0 : ℤ) := by
    have hm : ∀ b ∈ vs.map (fun p : Pixel => p.2.1), b = (0 : ℤ) := by
      intro b hb
      obtain ⟨p, hp, rfl⟩ := List.mem_map.mp hb
      rw [h p hp]
    simpa using List.eq_replicate_of_mem hm
  have h3 : vs.map (fun p => p.2.2) = List.replicate vs.length (0 : ℤ) := by
    have hm : ∀ b ∈ vs.map (fun p : Pixel => p.2.2), b = (0 : ℤ) := by
      intro b hb
      obtain ⟨p, hp, rfl⟩ := List.mem_map.mp hb
      rw [h p hp]
    simpa using List.eq_replicate_of_mem hm
  have e1 : channel_avg (vs.map fun p => p.1) = 255 := by
    rw [h1]
    unfold channel_avg
    rw [List.sum_replicate, List.length_replicate, nsmul_eq_mul]
    exact Int.mul_fdiv_cancel_left _ hn
  have e2 : channel_avg (vs.map fun p => p.2.1) = 0 := by
    rw [h2]
    unfold channel_avg
    rw [List.sum_replicate]
    simp
  have e3 : channel_avg (vs.map fun p => p.2.2) = 0 := by
    rw [h3]
    unfold channel_avg
    rw [List.sum_replicate]
    simp
  unfold average_color
  rw [e1, e2, e3]

lemma sampleCoords_ne_nil {limit s : ℕ} (hl : 1 ≤ limit) (hs : 1 ≤ s) :
    sampleCoords limit s ≠ [] := by
  have hdiv : 1 ≤ (limit + s - 1) / s :=
    (Nat.le_div_iff_mul_le (by omega)).mpr (by omega)
  unfold sampleCoords
  intro hcon
  rw [List.map_eq_nil_iff, List.range_eq_nil] at hcon
  omega

lemma sweep_ne_nil {width height s : ℕ} (hw : 1 ≤ width) (hh : 1 ≤ height)
    (hs : 1 ≤ s) : sweep width height s ≠ [] := by
  obtain ⟨x, hx⟩ := List.exists_mem_of_ne_nil _ (sampleCoords_ne_nil hw hs)
  obtain ⟨y, hy⟩ := List.exists_mem_of_ne_nil _ (sampleCoords_ne_nil hh hs)
  have hmem : (x, y) ∈ sweep width height s := by
    unfold sweep
    exact List.mem_flatMap.mpr ⟨x, hx, List.mem_map.mpr ⟨y, hy, rfl⟩⟩
  exact List.ne_nil_of_mem hmem

lemma foldl_addSample_ne_nil (key : ℕ × ℕ → ℤ × ℤ) (pix : ℕ × ℕ → Pixel)
    (samples : List (ℕ × ℕ)) :
    ∀ acc : List ((ℤ × ℤ) × List Pixel), acc ≠ [] →
      samples.foldl (fun a p => addSample (key p) (pix p) a) acc ≠ [] := by
  induction samples with
  | nil => intro acc h; simpa
  | cons p rest ih =>
      intro acc _
      simp only [List.foldl_cons]
      exact ih _ (addSample_ne_nil _ _ _)

lemma accumulate_ne_nil (key : ℕ × ℕ → ℤ × ℤ) (pix : ℕ × ℕ → Pixel)
    {samples : List (ℕ × ℕ)} (hsamples : samples ≠ []) :
    accumulate key pix samples ≠ [] := by
  cases samples with
  | nil => exact absurd rfl hsamples
  | cons p rest =>
      unfold accumulate
      simp only [List.foldl_cons]
      exact foldl_addSample_ne_nil key pix rest _ (addSample_ne_nil _ _ _)

lemma addSample_values_const (c : Pixel) (k : ℤ × ℤ)
    (acc : List ((ℤ × ℤ) × List Pixel))
    (h : ∀ e ∈ acc, ∀ x ∈ e.2, x = c) :
    ∀ e ∈ addSample k c acc, ∀ x ∈ e.2, x = c := by
  induction acc with
  | nil =>
      intro e he
      simp only [addSample, List.mem_singleton] at he
      subst he
      intro x hx
      simpa using hx
  | cons a rest ih =>
      intro e he
      unfold addSample at he
      by_cases ha : a.1 = k
      · rw [if_pos ha] at he
        rcases List.mem_cons.mp he with h1 | h1
        · intro x hx
          rw [h1] at hx
          rcases List.mem_append.mp hx with h2 | h2
          · exact h a (List.mem_cons_self a rest) x h2
          · simpa using h2
        · exact h e (List.mem_cons_of_mem a h1)
      · rw [if_neg ha] at he
        rcases List.mem_cons.mp he with h1 | h1
        · rw [h1]
          exact h a (List.mem_cons_self a rest)
        · exact ih (fun x hx => h x (List.mem_cons_of_mem a hx)) e h1

lemma foldl_addSample_values_const (c : Pixel) (key : ℕ × ℕ → ℤ × ℤ)
    (pix : ℕ × ℕ → Pixel) (hpix : ∀ p, pix p = c)
    (samples : List (ℕ × ℕ)) :
    ∀ acc : List ((ℤ × ℤ) × List Pixel),
      (∀ e ∈ acc, ∀ x ∈ e.2, x = c) →
      ∀ e ∈ samples.foldl (fun a p => addSample (key p) (pix p) a) acc,
        ∀ x ∈ e.2, x = c := by
  induction samples with
  | nil =>
      intro acc h
      simp only [List.foldl_nil]
      exact h
  | cons p rest ih =>
      intro acc h
      simp only [List.foldl_cons]
      refine ih _ ?_
      rw [hpix p]
      exact addSample_values_const c (key p) acc h

lemma accumulate_values_const (c : Pixel) (key : ℕ × ℕ → ℤ × ℤ)
    (pix : ℕ × ℕ → Pixel) (hpix : ∀ p, pix p = c)
    (samples : List (ℕ × ℕ)) :
    ∀ e ∈ accumulate key pix samples, ∀ x ∈ e.2, x = c :=
  foldl_addSample_values_const c key pix hpix samples [] (by simp)

/-- C5 counterexample: on a uniform red 4 by 4 image the conversion does
not succeed: the stride int(size / 2) is 0 and the reference fails at the
range call, emitting no polygons. -/
theorem uniform_red_4x4_fails :
    convert_png_to_svg 4 4 (fun _ => ((255 : ℤ), (0 : ℤ), (0 : ℤ))) =
      Except.error ConvError.rangeStepZero := by
  have h4 : ((4 : ℕ) : ℝ) < 20 * Real.sqrt 3 := by
    push_cast
    nlinarith [sqrt3_mul_self, sqrt3_pos]
  unfold convert_png_to_svg
  rw [if_pos (by rw [strideOf_eq_zero h4])]

/-- C5 as amended: for a uniform red image of width at least 4 and height
at least 35 (so that the stride int(size / 2) is at least 1 and the range
calls are valid), the conversion succeeds, emits at least one polygon, and
every emitted polygon is filled with the color ff0000. -/
theorem uniform_red_image_all_red (width height : ℕ) (g : ℕ × ℕ → Pixel)
    (hw : 4 ≤ width) (hh : 35 ≤ height)
    (hg : ∀ p, g p = ((255 : ℤ), (0 : ℤ), (0 : ℤ))) :
    convert_png_to_svg width height g =
      Except.ok (convertCells width height g) ∧
    convertCells width height g ≠ [] ∧
    (convertCells width height g).Forall
      (fun c => fillColor c.2 = "#ff0000") := by
  have hstr := strideOf_ge_one hh
  have hsnat : 1 ≤ (strideOf height).toNat := by omega
  refine ⟨?_, ?_, ?_⟩
  · unfold convert_png_to_svg
    rw [if_neg (by omega)]
  · unfold convertCells renderCells
    simp only [ne_eq, List.map_eq_nil_iff]
    exact accumulate_ne_nil _ _ (sweep_ne_nil (by omega) (by omega) hsnat)
  · rw [List.forall_iff_forall_mem]
    intro c hc
    unfold convertCells renderCells at hc
    obtain ⟨e, he, rfl⟩ := List.mem_map.mp hc
    have hval : ∀ x ∈ e.2, x = ((255 : ℤ), (0 : ℤ), (0 : ℤ)) :=
      accumulate_values_const _ _ _ hg _ e he
    have hnev : e.2 ≠ [] := accumulate_values_ne_nil _ _ _ e he
    dsimp only
    rw [average_color_const_red e.2 hnev hval]
    decide

/-- C5 witness: the amended theorem applied to the concrete 4 by 35
uniform red image. -/
theorem uniform_red_image_all_red_witness :
    4 ≤ 4 ∧ 35 ≤ 35 ∧
    (convert_png_to_svg 4 35 (fun _ => ((255 : ℤ), (0 : ℤ), (0 : ℤ))) =
      Except.ok (convertCells 4 35 (fun _ => ((255 : ℤ), (0 : ℤ), (0 : ℤ)))) ∧
    convertCells 4 35 (fun _ => ((255 : ℤ), (0 : ℤ), (0 : ℤ))) ≠ [] ∧
    (convertCells 4 35 (fun _ => ((255 : ℤ), (0 : ℤ), (0 : ℤ)))).Forall
      (fun c => fillColor c.2 = "#ff0000")) :=
  ⟨by decide, by decide,
    uniform_red_image_all_red 4 35 _ (by decide) (by decide) (fun _ => rfl)⟩

/-- One decimal digit character. -/
def digitChar10 (d : ℕ) : Char := Char.ofNat (48 + d)

/-- Decimal rendering of a natural number, most significant digit first. -/
def natChars (n : ℕ) : List Char :=
  if n = 0 then ['0'] else ((Nat.digits 10 n).map digitChar10).reverse

/-- Python fixed-point formatting :.2f as a character list: round the value
times 100 half to even, render sign, integer part, a point and exactly two
decimal digits. -/
noncomputable def fmt2_chars (x : ℝ) : List Char :=
  let n := pyRound (x * 100)
  let sign : List Char := if x < 0 then ['-'] else []
  let m := n.natAbs
  sign ++ natChars (m / 100) ++
    ['.', digitChar10 (m % 100 / 10), digitChar10 (m % 10)]

/-- hexagon_points from the source, kept as the list of the six serialized
corner point strings: hex_to_pixel composed with hex_corner for i = 0..5,
each coordinate formatted with :.2f and joined as x,y. -/
noncomputable def hexagon_point_strs (q r size : ℝ) : List String :=
  let c := hex_to_pixel q r size
  (List.range 6).map (fun i =>
    String.mk (fmt2_chars (hex_corner c.1 c.2 size (i : ℤ)).1 ++
      (',' :: fmt2_chars (hex_corner c.1 c.2 size (i : ℤ)).2)))

/-- The final space-joined points attribute built by hexagon_points. -/
noncomputable def hexagon_points (q r size : ℝ) : String :=
  String.intercalate (" ") (hexagon_point_strs q r size)

/-- The character is one of the ten decimal digit characters. -/
def decimal_digit (c : Char) : Prop := ∃ d : ℕ, d < 10 ∧ c = digitChar10 d

/-- The character list ends in a point followed by exactly two decimal
digits, and contains no other point. -/
def fixed2_shape (l : List Char) : Prop :=
  ∃ (pre : List Char) (d1 d2 : Char), l = pre ++ ['.', d1, d2] ∧
    ('.') ∉ pre ∧ decimal_digit d1 ∧ decimal_digit d2

/-- The string is an x,y pair of two fixed-two-decimal coordinates. -/
def point_pair_shape (s : String) : Prop :=
  ∃ lx ly : List Char, s.data = lx ++ (',' :: ly) ∧
    fixed2_shape lx ∧ fixed2_shape ly

lemma digitChar10_ne_dot {d : ℕ} (hd : d < 10) : digitChar10 d ≠ ('.') := by
  interval_cases d <;> decide

lemma dot_not_mem_natChars (n : ℕ) : ('.') ∉ natChars n := by
  unfold natChars
  split_ifs with h
  · decide
  · intro hcon
    rw [List.mem_reverse] at hcon
    obtain ⟨d, hd, hdc⟩ := List.mem_map.mp hcon
    exact digitChar10_ne_dot (Nat.digits_lt_base (by norm_num) hd) hdc

lemma fmt2_chars_shape (x : ℝ) : fixed2_shape (fmt2_chars x) := by
  unfold fmt2_chars
  refine ⟨(if x < 0 then ['-'] else []) ++
    natChars ((pyRound (x * 100)).natAbs / 100),
    digitChar10 ((pyRound (x * 100)).natAbs % 100 / 10),
    digitChar10 ((pyRound (x * 100)).natAbs % 10), ?_, ?_, ?_, ?_⟩
  · rw [List.append_assoc]
  · intro hcon
    rcases List.mem_append.mp hcon with h1 | h1
    · split_ifs at h1 <;> simp_all
    · exact dot_not_mem_natChars _ h1
  · exact ⟨_, by omega, rfl⟩
  · exact ⟨_, by omega, rfl⟩

/-- C7: hexagon_point_strs returns exactly six corner point strings,
obtained by composing hex_to_pixel with hex_corner for i = 0..5, each one
an x,y pair whose coordinates are formatted with exactly two decimal
digits, and hexagon_points is their space-joined serialization. -/
theorem hexagon_points_six_formatted (q r size : ℝ) :
    (hexagon_point_strs q r size).length = 6 ∧
    hexagon_point_strs q r size = (List.range 6).map (fun i =>
      String.mk (fmt2_chars (hex_corner (hex_to_pixel q r size).1
          (hex_to_pixel q r size).2 size (i : ℤ)).1 ++
        (',' :: fmt2_chars (hex_corner (hex_to_pixel q r size).1
          (hex_to_pixel q r size).2 size (i : ℤ)).2))) ∧
    hexagon_points q r size =
      String.intercalate (" ") (hexagon_point_strs q r size) ∧
    (hexagon_point_strs q r size).Forall point_pair_shape := by
  refine ⟨?_, rfl, rfl, ?_⟩
  · rfl
  rw [List.forall_iff_forall_mem]
  intro s hs
  unfold hexagon_point_strs at hs
  obtain ⟨i, _, rfl⟩ := List.mem_map.mp hs
  exact ⟨_, _, rfl, fmt2_chars_shape _, fmt2_chars_shape _⟩
